import Mathlib

/-!
Verification of the merkle-tree core (`merkle-tree/src/merkle_tree.rs`):
the full tree builder (`MerkleTree::new`), the incremental root-only
calculator (`append_nodes` / `commit_finish` / `merkle_root`), capacity
estimation (`calculate_vec_capacity`), and proof generation/verification
(`find_path`, `Proof::verify`, `ProofEntry::new`).

Rust `while` loops whose bound is data-dependent are rendered as
structurally recursive functions over an explicit fuel argument chosen at
the call site to dominate the iteration count of the loop (the control
variable of each loop strictly decreases, so the chosen fuel is always
sufficient);
this keeps every definition kernel-computable.  Mutation of the flat node
vector becomes explicit state passing of a `List Hash`.
-/

/-- Modelled from the spec: the hash primitive (`solana_program::hash::hashv`)
is outside this repository and the spec treats it as "an opaque
collision-resistant function taking one or more byte slices and returning a
fixed-size digest"; the tree "never inspects or interprets digest contents".
We model the digest space as the free term algebra over the two
domain-separated framings used by the code: `leaf d` stands for
`hashv(&[LEAF_PREFIX, d])` (prefix byte 0) and `node l r` for
`hashv(&[INTERMEDIATE_PREFIX, l, r])` (prefix byte 1).  Distinct
constructors with injective arguments are exactly the collision-free /
domain-separated idealisation the spec assumes.  `uninit` stands for an
uninitialised or out-of-bounds digest value (the backing buffer of the fast
calculator is created uninitialised); it is a constant of the digest space never
produced by hashing. -/
inductive Hash : Type where
  | leaf (data : List Nat) : Hash
  | node (l r : Hash) : Hash
  | uninit : Hash
deriving DecidableEq, Repr

/-- Rust macro `hash_leaf!{d}` = `hashv(&[LEAF_PREFIX, d])`. -/
def hash_leaf (data : List Nat) : Hash := Hash.leaf data

/-- Rust macro `hash_intermediate!{l, r}` = `hashv(&[INTERMEDIATE_PREFIX, l, r])`. -/
def hash_intermediate (l r : Hash) : Hash := Hash.node l r

/-- Rust struct `ProofEntry(&Hash, Option<&Hash>, Option<&Hash>)` (borrowed
lifetimes dropped): target digest, optional left sibling, optional right
sibling. -/
structure ProofEntry where
  target : Hash
  lsib : Option Hash
  rsib : Option Hash
deriving DecidableEq, Repr

/-- Rust `ProofEntry::new`: `assert!(left_sibling.is_none() ^ right_sibling.is_none())`
then builds the entry.  The Rust `assert!` aborts the process; we model that
abort as an `Except.error`. -/
def ProofEntry.new (target : Hash) (left_sibling : Option Hash)
    (right_sibling : Option Hash) : Except String ProofEntry :=
  if Bool.xor left_sibling.isNone right_sibling.isNone then
    Except.ok ⟨target, left_sibling, right_sibling⟩
  else
    Except.error "assertion failed: left_sibling.is_none() ^ right_sibling.is_none()"

/-- Rust struct `Proof(Vec<ProofEntry>)` (borrowed lifetimes dropped). -/
structure Proof where
  entries : List ProofEntry
deriving DecidableEq, Repr

/-- The closure folded by the `try_fold` of `Proof::verify`: fill the absent
sibling with the running candidate, hash the pair, succeed only when the
result matches the recorded target of the entry. -/
def verify_step (candidate : Hash) (pe : ProofEntry) : Option Hash :=
  let lsib := pe.lsib.getD candidate
  let rsib := pe.rsib.getD candidate
  let h := hash_intermediate lsib rsib
  if h = pe.target then some h else none

/-- Rust `Proof::verify(candidate)`: `try_fold` over the entries, returning whether
the fold survived every step (`matches!(result, Some(_))`). -/
def Proof.verify (p : Proof) (candidate : Hash) : Bool :=
  (p.entries.foldlM verify_step candidate).isSome

/-- Rust `struct MerkleTree { leaf_count: usize, nodes: Vec<Hash> }`. -/
structure MerkleTree where
  leaf_count : Nat
  nodes : List Hash
deriving DecidableEq, Repr

/-- Rust `MerkleTree::next_level_len`. -/
def next_level_len (level_len : Nat) : Nat :=
  if level_len = 1 then 0 else (level_len + 1) / 2

/-- Fueled floor-log2: `floor_log2F fuel n = Nat.log2 n` whenever `n ≤ fuel`
(proved below).  Structural recursion keeps it kernel-computable. -/
def floor_log2F : Nat → Nat → Nat
  | 0, _ => 0
  | fuel + 1, n => if 2 ≤ n then floor_log2F fuel (n / 2) + 1 else 0

/-- Floor of the base-2 logarithm (`floor_log2 0 = 0`). -/
def floor_log2 (n : Nat) : Nat := floor_log2F n n

/-- Modelled from the spec: `fast_math::log2_raw(leaf_count as f32) as usize`
comes from the external `fast_math` crate (a floating-point approximation not
in this repository).  Spec section 4.2 gives its contract: the estimate is
"`floor(log2(n)) + 2n + 1`" where "log2 may be an approximation as long as the
inequality above always holds"; we model the truncated approximate logarithm
as the exact `floor(log2 n)`. -/
def log2_raw_usize (n : Nat) : Nat := floor_log2 n

/-- Rust `MerkleTree::calculate_vec_capacity`: `log2_raw(n) + 2n + 1` for positive
`n`, else 0. -/
def calculate_vec_capacity (leaf_count : Nat) : Nat :=
  if 0 < leaf_count then log2_raw_usize leaf_count + 2 * leaf_count + 1 else 0

/-- The inner `for i in 0..level_len` loop of `MerkleTree::new`: read the two
children of parent `i` from the region of the previous level in the flat vector
(duplicating the last child when the previous level has odd length) and push
their hash. -/
def buildOneLevel (nodes : List Hash) (prev_level_start prev_level_len
    level_len : Nat) : List Hash :=
  (List.range level_len).foldl (fun acc i =>
    let prev_level_idx := 2 * i
    let lsib := acc.getD (prev_level_start + prev_level_idx) Hash.uninit
    let rsib :=
      if prev_level_idx + 1 < prev_level_len then
        acc.getD (prev_level_start + prev_level_idx + 1) Hash.uninit
      else
        acc.getD (prev_level_start + prev_level_idx) Hash.uninit
    acc ++ [hash_intermediate lsib rsib]) nodes

/-- The outer `while level_len > 0` loop of `MerkleTree::new`.  `level_len`
strictly decreases across iterations (`next_level_len l < l` for `l ≥ 1`), so
fuel `level_len + 1` at the initial call dominates the iteration count. -/
def buildLoopF : Nat → List Hash → Nat → Nat → Nat → Nat → List Hash
  | 0, nodes, _, _, _, _ => nodes
  | fuel + 1, nodes, level_len, level_start, prev_level_len, prev_level_start =>
    if level_len = 0 then nodes
    else
      buildLoopF fuel (buildOneLevel nodes prev_level_start prev_level_len level_len)
        (next_level_len level_len) (level_start + level_len) level_len level_start

/-- Rust `MerkleTree::new`: hash every record into level 0 then build the upper
levels bottom-up in one flat vector.  (`calculate_vec_capacity` only pre-sizes
the allocation in Rust and has no observable effect on the contents.) -/
def MerkleTree.new (items : List (List Nat)) : MerkleTree :=
  let leaves := items.map (fun item => hash_leaf item)
  { leaf_count := items.length
    nodes := buildLoopF (next_level_len items.length + 1) leaves
      (next_level_len items.length) items.length items.length 0 }

/-- Rust `MerkleTree::get_root`: `self.nodes.iter().last()`. -/
def MerkleTree.get_root (mt : MerkleTree) : Option Hash :=
  mt.nodes.getLast?

/-- The `while (cursor & 1) == 0` carry loop of `MerkleTree::append_nodes`:
fold the incoming digest with the stored slot at each completed layer.  The
loop body is `leaf = hash_intermediate!(leaf, nodes[layer])` — note the
carried digest is placed on the LEFT of the stored slot, exactly as the
source does.  `cursor` starts at the positive updated leaf count and halves
while even, so fuel `cursor` dominates the iteration count (the `cursor ≠ 0`
guard is unreachable at the call sites and only keeps the model total). -/
def append_nodes_carryF : Nat → List Hash → Hash → Nat → Nat → Hash × Nat
  | 0, _, leaf, layer, _ => (leaf, layer)
  | fuel + 1, nodes, leaf, layer, cursor =>
    if cursor % 2 = 0 ∧ cursor ≠ 0 then
      append_nodes_carryF fuel nodes
        (hash_intermediate leaf (nodes.getD layer Hash.uninit))
        (layer + 1) (cursor >>> 1)
    else (leaf, layer)

/-- One iteration of the `for mut leaf in leaves` loop of `append_nodes`: bump the
leaf count, run the carry loop, store the folded digest at the final layer. -/
def append_one (nodes : List Hash) (leaf_count : Nat) (leaf : Hash) :
    List Hash × Nat :=
  let lc := leaf_count + 1
  let r := append_nodes_carryF lc nodes leaf 0 lc
  (nodes.set r.2 r.1, lc)

/-- Rust `MerkleTree::append_nodes`: fold every leaf digest into the auxiliary
per-layer slot array, returning the updated slots and leaf count. -/
def append_nodes (nodes : List Hash) (leaf_count : Nat) (leaves : List Hash) :
    List Hash × Nat :=
  leaves.foldl (fun acc leaf => append_one acc.1 acc.2 leaf) (nodes, leaf_count)

/-- Fueled popcount, structural for kernel computation. -/
def popcountF : Nat → Nat → Nat
  | 0, _ => 0
  | fuel + 1, n => if n = 0 then 0 else n % 2 + popcountF fuel (n / 2)

/-- Rust `usize::count_ones`. -/
def count_ones (n : Nat) : Nat := popcountF n n

/-- Rust `usize::is_power_of_two`: exactly one set bit. -/
def is_power_of_two (n : Nat) : Bool := count_ones n == 1

/-- Fueled trailing-zero count, structural for kernel computation.  (In Rust
`usize::trailing_zeros(0)` is the bit width; the only caller guards the
argument away from 0, and the model returns 0 there.) -/
def tzF : Nat → Nat → Nat
  | 0, _ => 0
  | fuel + 1, n => if n % 2 = 0 ∧ n ≠ 0 then tzF fuel (n / 2) + 1 else 0

/-- Rust `usize::trailing_zeros` for positive arguments. -/
def trailing_zeros (n : Nat) : Nat := tzF n n

/-- Rust `MerkleTree::private_depth`.  For `leaf_count ≥ 2` the source computes
`(63 - (leaf_count - 1).leading_zeros()) + 2`; on a `u64`,
`63 - x.leading_zeros() = floor(log2 x)` for `x ≥ 1`. -/
def private_depth (leaf_count : Nat) : Nat :=
  if leaf_count ≤ 1 then leaf_count
  else floor_log2 (leaf_count - 1) + 2

/-- The `while layer_count > 1` loop of `MerkleTree::commit_finish`: when the
pending count at the current layer is odd the carried digest is hashed with
itself (the duplicate-last policy), otherwise it is hashed with the stored
slot — again with the carried digest on the LEFT, as in the source.
`layer_count` at least halves each iteration, so fuel `layer_count` dominates
the iteration count. -/
def commit_finish_loopF : Nat → List Hash → Hash → Nat → Nat → Hash
  | 0, _, tmp, _, _ => tmp
  | fuel + 1, nodes, tmp, layer, layer_count =>
    if 1 < layer_count then
      commit_finish_loopF fuel nodes
        (if layer_count % 2 = 1 then hash_intermediate tmp tmp
         else hash_intermediate tmp (nodes.getD layer Hash.uninit))
        (layer + 1) ((layer_count + 1) >>> 1)
    else tmp

/-- Rust `MerkleTree::commit_finish`: if the leaf count is not a power of two,
merge the still-pending partial subtrees from the lowest pending layer
upward and store the result at the root slot; return (updated slots, root
digest). -/
def commit_finish (nodes : List Hash) (leaf_count : Nat) : List Hash × Hash :=
  let root_idx := private_depth leaf_count - 1
  if ¬ is_power_of_two leaf_count then
    let layer := trailing_zeros leaf_count
    let layer_count := leaf_count >>> layer
    let tmp := nodes.getD layer Hash.uninit
    let res := commit_finish_loopF layer_count nodes tmp layer layer_count
    (nodes.set root_idx res, res)
  else
    (nodes, nodes.getD root_idx Hash.uninit)

/-- Rust `MerkleTree::merkle_root`: `None` on empty input, otherwise run the fast
incremental calculator over the leaf hashes (63 uninitialised auxiliary
slots), then rebuild the full tree and `panic!("Bad hash", ..)` — modelled as
`Except.error` — when the two roots disagree.  The `unwrap` of the root of
the rebuilt tree is likewise modelled as an error (unreachable: the input is
non-empty). -/
def merkle_root (items : List (List Nat)) : Except String (Option Hash) :=
  if items.isEmpty then Except.ok none
  else
    let nodes := List.replicate 63 Hash.uninit
    let hashes := items.map (fun item => hash_leaf item)
    let r := append_nodes nodes 0 hashes
    let res := (commit_finish r.1 r.2).2
    let tree := MerkleTree.new items
    match tree.get_root with
    | none => Except.error "called Option.unwrap on a None value"
    | some res2 =>
      if res ≠ res2 then Except.error "Bad hash"
      else Except.ok (some res)

/-- The `while level_len > 0` loop of `MerkleTree::find_path`: at each level,
slice the level out of the flat vector, push a `ProofEntry` for the sibling
recorded at the previous level (none pending on the first iteration), record
the sibling of the current node (itself when it is the unpaired last node of an
odd level), and move to the parent index.  Level lengths strictly decrease,
so fuel `level_len` dominates the iteration count.  A failing
`ProofEntry::new` assertion propagates as the `Except.error`. -/
def find_path_loopF : Nat → List Hash → Nat → Nat → Nat → Option Hash →
    Option Hash → List ProofEntry → Except String (List ProofEntry)
  | 0, _, _, _, _, _, _, path => Except.ok path
  | fuel + 1, nodes, level_start, level_len, node_index, lsib, rsib, path =>
    if level_len = 0 then Except.ok path
    else
      let level := (nodes.drop level_start).take level_len
      let target := level.getD node_index Hash.uninit
      let pushed : Except String (List ProofEntry) :=
        if lsib.isSome || rsib.isSome then
          match ProofEntry.new target lsib rsib with
          | Except.ok entry => Except.ok (path ++ [entry])
          | Except.error e => Except.error e
        else Except.ok path
      match pushed with
      | Except.error e => Except.error e
      | Except.ok path2 =>
        if node_index % 2 = 0 then
          let rsib2 :=
            if node_index + 1 < level.length then
              some (level.getD (node_index + 1) Hash.uninit)
            else
              some (level.getD node_index Hash.uninit)
          find_path_loopF fuel nodes (level_start + level_len)
            (next_level_len level_len) (node_index / 2) none rsib2 path2
        else
          find_path_loopF fuel nodes (level_start + level_len)
            (next_level_len level_len) (node_index / 2)
            (some (level.getD (node_index - 1) Hash.uninit)) none path2

/-- Rust `MerkleTree::find_path`: `None` when `index >= leaf_count`, otherwise
walk the levels bottom-up collecting sibling disclosures. -/
def MerkleTree.find_path (mt : MerkleTree) (index : Nat) :
    Except String (Option Proof) :=
  if mt.leaf_count ≤ index then Except.ok none
  else
    match find_path_loopF mt.leaf_count mt.nodes 0 mt.leaf_count index
        none none [] with
    | Except.ok entries => Except.ok (some (Proof.mk entries))
    | Except.error e => Except.error e

/-- Specification view of one construction level: parent `i` hashes children
`2i` and `2i+1`, the last child duplicated when the level length is odd.
This is the per-level content of the inner loop of `MerkleTree::new`. -/
def hash_level (prev : List Hash) : List Hash :=
  (List.range (next_level_len prev.length)).map (fun i =>
    hash_intermediate (prev.getD (2 * i) Hash.uninit)
      (if 2 * i + 1 < prev.length then prev.getD (2 * i + 1) Hash.uninit
       else prev.getD (2 * i) Hash.uninit))

/-- All levels of the tree over a given leaf level, leaves first. -/
def levelsList : List Hash → List (List Hash)
  | [] => []
  | x :: xs => (x :: xs) :: levelsList (hash_level (x :: xs))
termination_by l => l.length
decreasing_by
  simp only [hash_level, List.length_map, List.length_range, next_level_len,
    List.length_cons]
  split <;> omega

/-- The sibling disclosure `find_path` records at a level: an even position
disclosures its right neighbour (itself when it is the unpaired last node),
an odd position its left neighbour. -/
def sib_of (level : List Hash) (node_index : Nat) : Option Hash × Option Hash :=
  if node_index % 2 = 0 then
    (none,
      if node_index + 1 < level.length then
        some (level.getD (node_index + 1) Hash.uninit)
      else
        some (level.getD node_index Hash.uninit))
  else
    (some (level.getD (node_index - 1) Hash.uninit), none)

/-- Specification view of the proof entries `find_path` produces when walking
a list of levels from position `i` of the first level: each entry targets the
parent node and discloses the sibling recorded one level below. -/
def entries_cleanL : List (List Hash) → Nat → List ProofEntry
  | [], _ => []
  | [_], _ => []
  | cur :: next :: rest, i =>
    ⟨next.getD (i / 2) Hash.uninit, (sib_of cur i).1, (sib_of cur i).2⟩ ::
      entries_cleanL (next :: rest) (i / 2)

/-- The pending-sibling entry flushed at the start of a `find_path` loop
iteration: one entry when a sibling is pending, nothing otherwise. -/
def pendEntries (target : Hash) (lsib rsib : Option Hash) : List ProofEntry :=
  if lsib.isSome || rsib.isSome then [⟨target, lsib, rsib⟩] else []

/-- Level `k` of the tree over the given records: the leaf hashes with the
per-level parent construction `hash_level` applied `k` times.  This is the
level whose slice the `find_path` walk visits at its step `k`, and the level
`MerkleTree::new` materialises as the `k`-th segment of the flat vector. -/
def walk_level (items : List (List Nat)) (k : Nat) : List Hash :=
  hash_level^[k] (items.map (fun item => hash_leaf item))

/-- A proof entry that pairs a node with itself: target
`hash_intermediate x x`, no left sibling, and the node itself disclosed as
the right sibling — what `find_path` records for the unpaired last node of
an odd-length level. -/
def self_paired_entry (x : Hash) : ProofEntry :=
  ⟨hash_intermediate x x, none, some x⟩

/-- The iterative total-node-count summation from the repository test
`test_nodes_capacity_compute`: sum the level sizes generated by
`next_level_len` until they reach 0. -/
def iteration_count (leaf_count : Nat) : Nat :=
  if leaf_count = 0 then 0
  else leaf_count + iteration_count (next_level_len leaf_count)
termination_by leaf_count
decreasing_by
  simp only [next_level_len]
  split <;> omega

/-- Number of odd-sized levels strictly above size 1 along the level-size
chain; the exact excess of the true node count over `2n - 1`. -/
def oddSteps (n : Nat) : Nat :=
  if n ≤ 1 then 0
  else (if n % 2 = 1 then 1 else 0) + oddSteps ((n + 1) / 2)
termination_by n
decreasing_by omega

/-! ### Basic structural facts about levels -/

theorem next_level_len_lt {l : Nat} (h : 1 ≤ l) : next_level_len l < l := by
  unfold next_level_len
  split <;> omega

theorem next_level_len_pos {l : Nat} (h : 2 ≤ l) : 0 < next_level_len l := by
  unfold next_level_len
  split <;> omega

theorem next_level_len_eq_zero {l : Nat} (h : l ≤ 1) : next_level_len l = 0 := by
  unfold next_level_len
  split <;> omega

theorem hash_level_length (prev : List Hash) :
    (hash_level prev).length = next_level_len prev.length := by
  simp [hash_level]

theorem hash_level_getD (prev : List Hash) {k : Nat}
    (h : k < next_level_len prev.length) :
    (hash_level prev).getD k Hash.uninit =
      hash_intermediate (prev.getD (2 * k) Hash.uninit)
        (if 2 * k + 1 < prev.length then prev.getD (2 * k + 1) Hash.uninit
         else prev.getD (2 * k) Hash.uninit) := by
  have hk : k < (hash_level prev).length := by
    rw [hash_level_length]; exact h
  rw [List.getD_eq_getElem _ _ hk]
  simp only [hash_level, List.getElem_map, List.getElem_range]

theorem half_lt_next_level_len {i l : Nat} (hi : i < l) (h2 : 2 ≤ l) :
    i / 2 < next_level_len l := by
  unfold next_level_len
  split <;> omega

theorem levelsList_cons (x : Hash) (xs : List Hash) :
    levelsList (x :: xs) = (x :: xs) :: levelsList (hash_level (x :: xs)) := by
  rw [levelsList]

theorem levelsList_ne_nil (l : List Hash) (h : l ≠ []) :
    levelsList l = l :: levelsList (hash_level l) := by
  match l, h with
  | x :: xs, _ => exact levelsList_cons x xs

/-! ### C9: ProofEntry construction -/

/-- C9: the constructor `ProofEntry::new` succeeds if and only if exactly one of the left and
right sibling arguments is supplied; construction with both absent and with
both present is rejected (the `assert!` aborts, modelled as `Except.error`). -/
theorem proof_entry_new_ok_iff_exactly_one (target : Hash)
    (l r : Option Hash) :
    (∃ e, ProofEntry.new target l r = Except.ok e) ↔
      ((l.isSome ∧ ¬ r.isSome) ∨ (¬ l.isSome ∧ r.isSome)) := by
  cases l <;> cases r <;> simp [ProofEntry.new, Bool.xor]

/-! ### C7: empty and singleton trees -/

/-- C7: building a tree from zero records yields a tree whose root query is
absent, and building from exactly one record `x` yields the root
`hash_leaf x`, the domain-separated digest of that single record. -/
theorem root_of_empty_and_singleton :
    (MerkleTree.new []).get_root = none ∧
      ∀ x : List Nat, (MerkleTree.new [x]).get_root = some (hash_leaf x) := by
  constructor
  · rfl
  · intro x
    rfl

/-! ### C1 and C3: the fast root calculator disagrees with the tree builder -/

/-- C1 (code bug witnessed at a concrete input): on the two-record input
`[[0], [1]]`, the fast calculator (`append_nodes` then `commit_finish`)
produces `node(leaf [1], leaf [0])` — the carry loop hashes the incoming
digest on the left of the stored left-subtree digest — while the tree
builder produces `node(leaf [0], leaf [1])`; the two digests differ, and
the cross-check inside `merkle_root` aborts with its "Bad hash" panic. -/
theorem fast_root_disagrees_with_tree_builder :
    (commit_finish
        (append_nodes (List.replicate 63 Hash.uninit) 0
          [hash_leaf [0], hash_leaf [1]]).1
        (append_nodes (List.replicate 63 Hash.uninit) 0
          [hash_leaf [0], hash_leaf [1]]).2).2
      = hash_intermediate (hash_leaf [1]) (hash_leaf [0]) ∧
    (MerkleTree.new [[0], [1]]).get_root
      = some (hash_intermediate (hash_leaf [0]) (hash_leaf [1])) ∧
    hash_intermediate (hash_leaf [1]) (hash_leaf [0])
      ≠ hash_intermediate (hash_leaf [0]) (hash_leaf [1]) ∧
    merkle_root [[0], [1]] = Except.error "Bad hash" := by
  refine ⟨rfl, rfl, by decide, rfl⟩

/-- C3 (code bug witnessed at a concrete input): the function `merkle_root` does have a
reachable abort path on non-empty input — on `[[0], [1]]` it hits the
`panic!("Bad hash", ..)` cross-check instead of returning a digest, and the
same happens on `[[0], [1], [2]]`. -/
theorem merkle_root_aborts_on_nonempty :
    merkle_root [[0], [1]] = Except.error "Bad hash" ∧
      merkle_root [[0], [1], [2]] = Except.error "Bad hash" ∧
      merkle_root [] = Except.ok none := by
  refine ⟨rfl, rfl, rfl⟩

/-! ### C2: the single-leaf counterexample -/

/-- C2 counterexample: on the single-record tree `[[0]]`, `find_path 0`
returns the empty proof, and that proof verifies the digest
`hash_leaf [1]` — which differs from `hash_leaf [0]` — as `true`, because
`try_fold` over an empty entry list succeeds vacuously.  This refutes the
extension of the claim to the single-leaf tree. -/
theorem single_leaf_empty_proof_verifies_anything :
    (MerkleTree.new [[0]]).find_path 0 = Except.ok (some (Proof.mk [])) ∧
      (Proof.mk []).verify (hash_leaf [1]) = true ∧
      hash_leaf [1] ≠ hash_leaf [0] := by
  refine ⟨rfl, rfl, by decide⟩

/-! ### C4: capacity estimate dominates the true node count -/

theorem log2_rec {n : Nat} (h : 2 ≤ n) : Nat.log2 n = Nat.log2 (n / 2) + 1 := by
  rw [Nat.log2]
  simp [h]

theorem log2_small {n : Nat} (h : n < 2) : Nat.log2 n = 0 := by
  rw [Nat.log2]
  simp
  omega

theorem oddSteps_low {n : Nat} (h : n ≤ 1) : oddSteps n = 0 := by
  rw [oddSteps]
  rw [if_pos h]

theorem oddSteps_high {n : Nat} (h : 2 ≤ n) :
    oddSteps n = (if n % 2 = 1 then 1 else 0) + oddSteps ((n + 1) / 2) := by
  rw [oddSteps]
  rw [if_neg (show ¬ n ≤ 1 by omega)]

theorem iteration_count_zero : iteration_count 0 = 0 := by
  rw [iteration_count]
  rw [if_pos rfl]

theorem iteration_count_pos {n : Nat} (h : 1 ≤ n) :
    iteration_count n = n + iteration_count (next_level_len n) := by
  rw [iteration_count]
  rw [if_neg (show ¬ n = 0 by omega)]

theorem floor_log2F_eq_log2 : ∀ (fuel n : Nat), n ≤ fuel →
    floor_log2F fuel n = Nat.log2 n := by
  intro fuel
  induction fuel with
  | zero =>
    intro n h
    have hn : n = 0 := by omega
    subst hn
    rw [log2_small (by omega)]
    rfl
  | succ fuel ih =>
    intro n h
    rw [floor_log2F]
    by_cases h2 : 2 ≤ n
    · rw [if_pos h2, ih (n / 2) (by omega), log2_rec h2]
    · rw [if_neg h2, log2_small (by omega)]

theorem floor_log2_eq_log2 (n : Nat) : floor_log2 n = Nat.log2 n :=
  floor_log2F_eq_log2 n n (Nat.le_refl n)

theorem iteration_count_closed_form : ∀ n : Nat, 1 ≤ n →
    iteration_count n = 2 * n - 1 + oddSteps n := by
  intro n
  induction n using Nat.strong_induction_on with
  | _ n ih =>
    intro hn
    rcases Nat.lt_or_ge n 2 with h1 | h2
    · have hn1 : n = 1 := by omega
      subst hn1
      rw [iteration_count_pos (by omega), next_level_len_eq_zero (by omega),
        iteration_count_zero, oddSteps_low (by omega)]
    · have hm1 : 1 ≤ (n + 1) / 2 := by omega
      have hmlt : (n + 1) / 2 < n := by omega
      have hnext : next_level_len n = (n + 1) / 2 := by
        unfold next_level_len
        rw [if_neg (show ¬ n = 1 by omega)]
      rw [iteration_count_pos (by omega), hnext, ih ((n + 1) / 2) hmlt hm1,
        oddSteps_high h2]
      rcases Nat.even_or_odd n with he | ho
      · obtain ⟨k, hk⟩ := he
        rw [if_neg (show ¬ n % 2 = 1 by omega)]
        omega
      · obtain ⟨k, hk⟩ := ho
        rw [if_pos (show n % 2 = 1 by omega)]
        omega

theorem oddSteps_pow2 : ∀ k : Nat, oddSteps (2 ^ k) = 0 := by
  intro k
  induction k with
  | zero => exact oddSteps_low (by norm_num)
  | succ k ih =>
    have h1 : 1 ≤ 2 ^ k := Nat.one_le_two_pow
    have h2 : 2 ^ (k + 1) = 2 * 2 ^ k := by ring
    rw [oddSteps_high (by omega)]
    rw [if_neg (show ¬ 2 ^ (k + 1) % 2 = 1 by omega)]
    rw [show (2 ^ (k + 1) + 1) / 2 = 2 ^ k by omega, ih]

theorem oddSteps_le_log : ∀ n : Nat, 1 ≤ n → oddSteps n ≤ Nat.log 2 n := by
  intro n
  induction n using Nat.strong_induction_on with
  | _ n ih =>
    intro hn
    rcases Nat.lt_or_ge n 2 with h1 | h2
    · have hn1 : n = 1 := by omega
      subst hn1
      rw [oddSteps_low (by omega)]
      omega
    · rw [oddSteps_high h2]
      rcases Nat.even_or_odd n with he | ho
      · -- even level: no odd step, recurse on n / 2 and use log monotonicity
        obtain ⟨k, hk⟩ := he
        rw [if_neg (show ¬ n % 2 = 1 by omega)]
        rw [show (n + 1) / 2 = n / 2 by omega]
        have hrec : oddSteps (n / 2) ≤ Nat.log 2 (n / 2) :=
          ih (n / 2) (by omega) (by omega)
        have hmono : Nat.log 2 (n / 2) ≤ Nat.log 2 n :=
          Nat.log_mono_right (by omega)
        omega
      · -- odd level: one odd step, recurse on m = (n + 1) / 2
        obtain ⟨k, hk⟩ := ho
        rw [if_pos (show n % 2 = 1 by omega)]
        set m := (n + 1) / 2 with hm
        have hm2 : 2 * m = n + 1 := by omega
        have h1' : 1 ≤ m := by omega
        have hlt : m < n := by omega
        by_cases hpow : ∃ j, m = 2 ^ j
        · -- (n + 1) / 2 a power of two: the recursive tail contributes nothing
          obtain ⟨j, hj⟩ := hpow
          rw [hj, oddSteps_pow2 j]
          have hpro : 2 ^ 1 ≤ n := by omega
          have hlog : 1 ≤ Nat.log 2 n :=
            (Nat.pow_le_iff_le_log (by norm_num) (show n ≠ 0 by omega)).mp hpro
          omega
        · -- n + 1 is then not a power of two, so log 2 (n + 1) = log 2 n
          have hstep : oddSteps m ≤ Nat.log 2 m := ih m hlt h1'
          have hlogm : Nat.log 2 (m * 2) = Nat.log 2 m + 1 :=
            @Nat.log_mul_base 2 m (by norm_num) (by omega)
          have hne : 2 ^ Nat.log 2 (n + 1) ≠ n + 1 := by
            intro hcontra
            apply hpow
            refine ⟨Nat.log 2 (n + 1) - 1, ?_⟩
            have hlog1 : 1 ≤ Nat.log 2 (n + 1) :=
              (Nat.pow_le_iff_le_log (by norm_num)
                (show n + 1 ≠ 0 by omega)).mp (by omega)
            have hsplit : 2 ^ Nat.log 2 (n + 1)
                = 2 * 2 ^ (Nat.log 2 (n + 1) - 1) := by
              rw [← Nat.pow_succ']
              congr 1
              omega
            omega
          have hle : 2 ^ Nat.log 2 (n + 1) ≤ n + 1 :=
            Nat.pow_log_le_self 2 (by omega)
          have hlen : Nat.log 2 (n + 1) ≤ Nat.log 2 n :=
            (Nat.pow_le_iff_le_log (by norm_num)
              (show n ≠ 0 by omega)).mp (by omega)
          have hflip : Nat.log 2 (m * 2) = Nat.log 2 (n + 1) := by
            rw [show m * 2 = n + 1 by omega]
          omega

theorem iteration_count_le_capacity : ∀ n : Nat,
    iteration_count n ≤ calculate_vec_capacity n := by
  intro n
  rcases Nat.eq_zero_or_pos n with h0 | hpos
  · subst h0
    rw [iteration_count_zero]
    simp [calculate_vec_capacity]
  · have hclosed := iteration_count_closed_form n hpos
    have hodd := oddSteps_le_log n hpos
    have hlog : Nat.log2 n = Nat.log 2 n := Nat.log2_eq_log_two
    rw [calculate_vec_capacity, if_pos hpos]
    unfold log2_raw_usize
    rw [floor_log2_eq_log2, hlog]
    omega

/-- C4: for every leaf count `n` with `n < 65536`, `calculate_vec_capacity n`
is at least the true total node count `iteration_count n`, the sum over all
levels of the sizes generated by `next_level_len`.  (The bound in fact holds
for every `n`; see `iteration_count_le_capacity`.) -/
theorem capacity_dominates_node_count (n : Nat) (h : n < 65536) :
    iteration_count n ≤ calculate_vec_capacity n :=
  iteration_count_le_capacity n

/-- Witness for C4 at the concrete leaf count 255. -/
theorem capacity_dominates_node_count_witness :
    255 < 65536 ∧ iteration_count 255 ≤ calculate_vec_capacity 255 :=
  ⟨by decide, capacity_dominates_node_count 255 (by decide)⟩

/-! ### The flat builder produces the concatenation of the levels -/

theorem getD_middle (done prev rest : List Hash) {k : Nat}
    (hk : k < prev.length) (d : Hash) :
    (done ++ prev ++ rest).getD (done.length + k) d = prev.getD k d := by
  rw [List.getD_eq_getElem?_getD, List.getD_eq_getElem?_getD, List.append_assoc,
    List.getElem?_append_right (Nat.le_add_right done.length k),
    show done.length + k - done.length = k by omega,
    List.getElem?_append_left hk]

theorem two_mul_lt_of_lt_next_level_len {i L : Nat}
    (h : i < next_level_len L) : 2 * i < L := by
  unfold next_level_len at h
  split at h <;> omega

theorem buildOneLevel_partial : ∀ (n : Nat) (done prev : List Hash),
    (∀ i, i < n → 2 * i < prev.length) →
    buildOneLevel (done ++ prev) done.length prev.length n
      = done ++ prev ++ (List.range n).map (fun i =>
          hash_intermediate (prev.getD (2 * i) Hash.uninit)
            (if 2 * i + 1 < prev.length then prev.getD (2 * i + 1) Hash.uninit
             else prev.getD (2 * i) Hash.uninit)) := by
  intro n
  induction n with
  | zero =>
    intro done prev hbound
    simp [buildOneLevel]
  | succ n ih =>
    intro done prev hbound
    have hstep : 2 * n < prev.length := hbound n (Nat.lt_succ_self n)
    unfold buildOneLevel at ih ⊢
    rw [List.range_succ, List.foldl_append,
      ih done prev (fun i hi => hbound i (Nat.lt_succ_of_lt hi)),
      List.map_append, List.foldl_cons, List.foldl_nil]
    simp only [List.map_cons, List.map_nil]
    rw [getD_middle done prev _ hstep]
    by_cases hodd : 2 * n + 1 < prev.length
    · rw [if_pos hodd, if_pos hodd,
        show done.length + 2 * n + 1 = done.length + (2 * n + 1) by omega,
        getD_middle done prev _ hodd]
      simp [List.append_assoc]
    · rw [if_neg hodd, if_neg hodd]
      simp [List.append_assoc]

theorem buildOneLevel_eq (done prev : List Hash) :
    buildOneLevel (done ++ prev) done.length prev.length
        (next_level_len prev.length)
      = done ++ prev ++ hash_level prev :=
  buildOneLevel_partial (next_level_len prev.length) done prev
    (fun _ hi => two_mul_lt_of_lt_next_level_len hi)

theorem levelsList_nil : levelsList [] = [] := by
  rw [levelsList]

theorem hash_level_ne_nil {prev : List Hash}
    (h : next_level_len prev.length ≠ 0) : hash_level prev ≠ [] := by
  intro hcontra
  have hlen := hash_level_length prev
  rw [hcontra] at hlen
  simp at hlen
  omega

theorem buildLoopF_eq : ∀ (fuel : Nat) (done prev : List Hash), prev ≠ [] →
    next_level_len prev.length + 1 ≤ fuel →
    buildLoopF fuel (done ++ prev) (next_level_len prev.length)
        (done.length + prev.length) prev.length done.length
      = done ++ prev ++ (levelsList (hash_level prev)).flatten := by
  intro fuel
  induction fuel with
  | zero =>
    intro done prev hne hfuel
    omega
  | succ fuel ih =>
    intro done prev hne hfuel
    simp only [buildLoopF]
    by_cases h0 : next_level_len prev.length = 0
    · rw [if_pos h0]
      have hnil : hash_level prev = [] := by
        have hlen := hash_level_length prev
        rw [h0] at hlen
        exact List.eq_nil_of_length_eq_zero hlen
      rw [hnil, levelsList_nil]
      simp
    · rw [if_neg h0, buildOneLevel_eq done prev]
      have hne' : hash_level prev ≠ [] := hash_level_ne_nil h0
      have hlt : next_level_len (next_level_len prev.length)
          < next_level_len prev.length :=
        next_level_len_lt (by omega)
      have hfuel' : next_level_len (hash_level prev).length + 1 ≤ fuel := by
        rw [hash_level_length]
        omega
      have ih' := ih (done ++ prev) (hash_level prev) hne' hfuel'
      simp only [List.length_append, hash_level_length] at ih'
      rw [levelsList_ne_nil (hash_level prev) hne']
      simp only [List.flatten_cons]
      rw [← List.append_assoc]
      exact ih'

theorem new_leaf_count (items : List (List Nat)) :
    (MerkleTree.new items).leaf_count = items.length := rfl

theorem new_nodes (items : List (List Nat)) (h : items ≠ []) :
    (MerkleTree.new items).nodes
      = (levelsList (items.map (fun item => hash_leaf item))).flatten := by
  have hlen : (items.map (fun item => hash_leaf item)).length = items.length :=
    List.length_map items _
  have hne : items.map (fun item => hash_leaf item) ≠ [] := by
    simpa using h
  have hmain := buildLoopF_eq (next_level_len items.length + 1) []
    (items.map (fun item => hash_leaf item)) hne (by rw [hlen])
  simp only [List.nil_append, List.length_nil, Nat.zero_add, hlen] at hmain
  show buildLoopF (next_level_len items.length + 1)
      (items.map (fun item => hash_leaf item)) (next_level_len items.length)
      items.length items.length 0
    = (levelsList (items.map (fun item => hash_leaf item))).flatten
  rw [hmain, levelsList_ne_nil _ hne]
  simp

/-! ### find_path walks the levels -/

theorem find_path_loopF_zero_len : ∀ (fuel : Nat) (nodes : List Hash)
    (level_start node_index : Nat) (ls rs : Option Hash)
    (path : List ProofEntry),
    find_path_loopF fuel nodes level_start 0 node_index ls rs path
      = Except.ok path := by
  intro fuel
  cases fuel <;> intros <;> simp [find_path_loopF]

theorem entries_cleanL_single (cur : List Hash) (i : Nat) :
    entries_cleanL [cur] i = [] := rfl

theorem entries_cleanL_cons (cur next : List Hash) (rest : List (List Hash))
    (i : Nat) :
    entries_cleanL (cur :: next :: rest) i
      = ⟨next.getD (i / 2) Hash.uninit, (sib_of cur i).1, (sib_of cur i).2⟩ ::
          entries_cleanL (next :: rest) (i / 2) := rfl

theorem pendEntries_none (t : Hash) : pendEntries t none none = [] := rfl

theorem pendEntries_left (t a : Hash) :
    pendEntries t (some a) none = [⟨t, some a, none⟩] := rfl

theorem pendEntries_right (t b : Hash) :
    pendEntries t none (some b) = [⟨t, none, some b⟩] := rfl

theorem proof_entry_new_left (t a : Hash) :
    ProofEntry.new t (some a) none = Except.ok ⟨t, some a, none⟩ := rfl

theorem proof_entry_new_right (t b : Hash) :
    ProofEntry.new t none (some b) = Except.ok ⟨t, none, some b⟩ := rfl

theorem sib_of_even (cur : List Hash) {i : Nat} (h : i % 2 = 0) :
    sib_of cur i = (none,
      if i + 1 < cur.length then some (cur.getD (i + 1) Hash.uninit)
      else some (cur.getD i Hash.uninit)) := by
  unfold sib_of
  rw [if_pos h]

theorem sib_of_odd (cur : List Hash) {i : Nat} (h : ¬ i % 2 = 0) :
    sib_of cur i = (some (cur.getD (i - 1) Hash.uninit), none) := by
  unfold sib_of
  rw [if_neg h]

theorem level_slice (done cur : List Hash) (h : cur ≠ []) :
    ((done ++ (levelsList cur).flatten).drop done.length).take cur.length
        = cur := by
  rw [List.drop_left, levelsList_ne_nil cur h, List.flatten_cons, List.take_left]

theorem isSome_ite_some (c : Prop) [Decidable c] (x y : Hash) :
    (if c then some x else some y).isSome = true := by
  split <;> rfl

theorem pend_some_rs (t : Hash) (rs : Option Hash) (h : rs.isSome = true) :
    pendEntries t none rs = [⟨t, none, rs⟩] := by
  unfold pendEntries
  rw [if_pos]
  simp [h]

theorem pushed_eval (t : Hash) (ls rs : Option Hash) (pre : List ProofEntry)
    (h : ¬(ls.isSome = true ∧ rs.isSome = true)) :
    (if ls.isSome || rs.isSome then
        match ProofEntry.new t ls rs with
        | Except.ok entry => Except.ok (pre ++ [entry])
        | Except.error e => Except.error e
      else Except.ok pre)
      = Except.ok (pre ++ pendEntries t ls rs) := by
  rcases ls with _ | a <;> rcases rs with _ | b
  · simp [pendEntries]
  · simp [ProofEntry.new, pendEntries]
  · simp [ProofEntry.new, pendEntries]
  · simp at h

theorem find_path_loopF_eq : ∀ (fuel : Nat) (cur done : List Hash) (i : Nat)
    (ls rs : Option Hash) (pre : List ProofEntry),
    cur ≠ [] → i < cur.length → ¬(ls.isSome = true ∧ rs.isSome = true) →
    cur.length ≤ fuel →
    find_path_loopF fuel (done ++ (levelsList cur).flatten) done.length
        cur.length i ls rs pre
      = Except.ok (pre ++ pendEntries (cur.getD i Hash.uninit) ls rs
          ++ entries_cleanL (levelsList cur) i) := by
  intro fuel
  induction fuel with
  | zero =>
    intro cur done i ls rs pre hne hi hp hfuel
    have h1 : 0 < cur.length := List.length_pos.mpr hne
    omega
  | succ fuel ih =>
    intro cur done i ls rs pre hne hi hp hfuel
    have h1 : 0 < cur.length := List.length_pos.mpr hne
    simp only [find_path_loopF]
    rw [if_neg (show ¬ cur.length = 0 by omega)]
    rw [level_slice done cur hne]
    rw [pushed_eval (cur.getD i Hash.uninit) ls rs pre hp]
    dsimp only
    by_cases hpar : i % 2 = 0
    · rw [if_pos hpar]
      by_cases hone : next_level_len cur.length = 0
      · -- the current level is the root level: the loop exits next iteration
        rw [hone, find_path_loopF_zero_len]
        have hnil : hash_level cur = [] :=
          List.eq_nil_of_length_eq_zero (by rw [hash_level_length]; exact hone)
        rw [levelsList_ne_nil cur hne, hnil, levelsList_nil,
          entries_cleanL_single]
        simp
      · -- recurse into the next level
        have hge2 : 2 ≤ cur.length := by
          have hne1 : cur.length ≠ 1 := by
            intro hc
            apply hone
            rw [hc]
            rfl
          omega
        have hnextne : hash_level cur ≠ [] := hash_level_ne_nil hone
        have hnl : (hash_level cur).length = next_level_len cur.length :=
          hash_level_length cur
        have hfuel2 : (hash_level cur).length ≤ fuel := by
          rw [hnl]
          have := next_level_len_lt (show 1 ≤ cur.length by omega)
          omega
        have hhalf : i / 2 < (hash_level cur).length := by
          rw [hnl]
          exact half_lt_next_level_len hi hge2
        have hnb2 : ¬((none : Option Hash).isSome = true ∧
            (if i + 1 < cur.length then some (cur.getD (i + 1) Hash.uninit)
             else some (cur.getD i Hash.uninit)).isSome = true) := by
          simp
        rw [show done.length + cur.length = (done ++ cur).length by simp]
        rw [show (levelsList cur).flatten
            = cur ++ (levelsList (hash_level cur)).flatten by
          rw [levelsList_ne_nil cur hne, List.flatten_cons]]
        rw [← List.append_assoc]
        rw [show next_level_len cur.length = (hash_level cur).length
          from hnl.symm]
        rw [ih (hash_level cur) (done ++ cur) (i / 2) none _ _ hnextne hhalf
          hnb2 hfuel2]
        rw [pend_some_rs _ _ (isSome_ite_some _ _ _)]
        rw [levelsList_ne_nil cur hne,
          levelsList_ne_nil (hash_level cur) hnextne, entries_cleanL_cons,
          sib_of_even cur hpar]
        simp [List.append_assoc]
    · rw [if_neg hpar]
      have hge2 : 2 ≤ cur.length := by omega
      have hone : next_level_len cur.length ≠ 0 := by
        have := next_level_len_pos hge2
        omega
      have hnextne : hash_level cur ≠ [] := hash_level_ne_nil hone
      have hnl : (hash_level cur).length = next_level_len cur.length :=
        hash_level_length cur
      have hfuel2 : (hash_level cur).length ≤ fuel := by
        rw [hnl]
        have := next_level_len_lt (show 1 ≤ cur.length by omega)
        omega
      have hhalf : i / 2 < (hash_level cur).length := by
        rw [hnl]
        exact half_lt_next_level_len hi hge2
      have hnb2 : ¬((some (cur.getD (i - 1) Hash.uninit)).isSome = true ∧
          (none : Option Hash).isSome = true) := by
        simp
      rw [show done.length + cur.length = (done ++ cur).length by simp]
      rw [show (levelsList cur).flatten
          = cur ++ (levelsList (hash_level cur)).flatten by
        rw [levelsList_ne_nil cur hne, List.flatten_cons]]
      rw [← List.append_assoc]
      rw [show next_level_len cur.length = (hash_level cur).length
        from hnl.symm]
      rw [ih (hash_level cur) (done ++ cur) (i / 2) _ none _ hnextne hhalf
        hnb2 hfuel2]
      rw [pendEntries_left]
      rw [levelsList_ne_nil cur hne,
        levelsList_ne_nil (hash_level cur) hnextne, entries_cleanL_cons,
        sib_of_odd cur hpar]
      simp [List.append_assoc]

theorem find_path_eq (items : List (List Nat)) (i : Nat)
    (h : i < items.length) :
    (MerkleTree.new items).find_path i
      = Except.ok (some (Proof.mk (entries_cleanL
          (levelsList (items.map (fun item => hash_leaf item))) i))) := by
  have hne : items ≠ [] := by
    intro hc
    subst hc
    simp at h
  have hleaves : items.map (fun item => hash_leaf item) ≠ [] := by
    simpa using hne
  have hmain := find_path_loopF_eq items.length
    (items.map (fun item => hash_leaf item)) [] i none none []
    hleaves (by simpa using h) (by simp) (by simp)
  simp only [List.nil_append, List.length_nil, List.length_map,
    pendEntries_none, List.append_nil] at hmain
  unfold MerkleTree.find_path
  rw [new_leaf_count, new_nodes items hne]
  rw [if_neg (show ¬ items.length ≤ i by omega)]
  rw [hmain]

/-- C6: the query `find_path` on a tree built from `n` records reports out-of-range
(returns the Rust `None`) exactly when `index ≥ n` — in particular at
`index = n` and on every index of the empty tree — and returns a proof for
every `index < n`; the index is never clamped. -/
theorem find_path_out_of_range_iff (items : List (List Nat)) (index : Nat) :
    ((MerkleTree.new items).find_path index = Except.ok none ↔
        items.length ≤ index) ∧
      (index < items.length →
        ∃ p, (MerkleTree.new items).find_path index = Except.ok (some p)) := by
  constructor
  · constructor
    · intro hnone
      by_contra hlt
      rw [find_path_eq items index (by omega)] at hnone
      simp at hnone
    · intro hge
      unfold MerkleTree.find_path
      rw [new_leaf_count, if_pos hge]
  · intro hlt
    exact ⟨_, find_path_eq items index hlt⟩

/-- Witness for C6 on a three-record tree at the in-range index 1 and the
out-of-range index 3. -/
theorem find_path_out_of_range_iff_witness :
    ((MerkleTree.new [[0], [1], [2]]).find_path 3 = Except.ok none) ∧
      (1 < 3 ∧ ∃ p, (MerkleTree.new [[0], [1], [2]]).find_path 1
        = Except.ok (some p)) :=
  ⟨((find_path_out_of_range_iff [[0], [1], [2]] 3).1).mpr (by decide),
    by decide, (find_path_out_of_range_iff [[0], [1], [2]] 1).2 (by decide)⟩

/-! ### Verification of the produced proof entries -/

theorem getD_ite_some (c : Prop) [Decidable c] (x y z : Hash) :
    (if c then some x else some y).getD z = if c then x else y := by
  split <;> rfl

theorem isNone_ite_some (c : Prop) [Decidable c] (x y : Hash) :
    (if c then some x else some y).isNone = false := by
  split <;> rfl

theorem verify_step_eval (c t : Hash) (ls rs : Option Hash) :
    verify_step c ⟨t, ls, rs⟩
      = if hash_intermediate (ls.getD c) (rs.getD c) = t then
          some (hash_intermediate (ls.getD c) (rs.getD c)) else none := rfl

theorem entries_cleanL_xor : ∀ (ls : List (List Hash)) (i : Nat)
    (e : ProofEntry), e ∈ entries_cleanL ls i →
    Bool.xor e.lsib.isNone e.rsib.isNone = true
  | [], _, _, h => by simp [entries_cleanL] at h
  | [_], _, _, h => by simp [entries_cleanL] at h
  | cur :: next :: rest, i, e, h => by
    rw [entries_cleanL_cons] at h
    rcases List.mem_cons.mp h with he | he
    · subst he
      by_cases hpar : i % 2 = 0
      · rw [sib_of_even cur hpar]
        simp [isNone_ite_some]
      · rw [sib_of_odd cur hpar]
        simp
    · exact entries_cleanL_xor (next :: rest) (i / 2) e he

theorem verify_entries_clean : ∀ (n : Nat) (cur : List Hash),
    cur.length ≤ n → cur ≠ [] → ∀ i, i < cur.length →
    ∃ r, (entries_cleanL (levelsList cur) i).foldlM verify_step
        (cur.getD i Hash.uninit) = some r := by
  intro n
  induction n with
  | zero =>
    intro cur hlen hne i hi
    have := List.length_pos.mpr hne
    omega
  | succ n ih =>
    intro cur hlen hne i hi
    rw [levelsList_ne_nil cur hne]
    by_cases hone : next_level_len cur.length = 0
    · have hnil : hash_level cur = [] :=
        List.eq_nil_of_length_eq_zero (by rw [hash_level_length]; exact hone)
      rw [hnil, levelsList_nil, entries_cleanL_single]
      exact ⟨_, rfl⟩
    · have h1 : 0 < cur.length := List.length_pos.mpr hne
      have hge2 : 2 ≤ cur.length := by
        have hne1 : cur.length ≠ 1 := by
          intro hc
          apply hone
          rw [hc]
          rfl
        omega
      have hnextne : hash_level cur ≠ [] := hash_level_ne_nil hone
      have hhalf : i / 2 < next_level_len cur.length :=
        half_lt_next_level_len hi hge2
      have htarget := hash_level_getD cur hhalf
      have hhalf' : i / 2 < (hash_level cur).length := by
        rw [hash_level_length]
        exact hhalf
      have hlen' : (hash_level cur).length ≤ n := by
        rw [hash_level_length]
        have := next_level_len_lt (show 1 ≤ cur.length by omega)
        omega
      rw [levelsList_ne_nil (hash_level cur) hnextne, entries_cleanL_cons,
        List.foldlM_cons]
      by_cases hpar : i % 2 = 0
      · rw [sib_of_even cur hpar]
        dsimp only
        rw [verify_step_eval]
        rw [show (2 : Nat) * (i / 2) = i from by omega] at htarget
        rw [htarget]
        simp only [Option.getD_none, getD_ite_some]
        rw [if_pos trivial]
        simp only [Option.some_bind, Option.bind_eq_bind]
        obtain ⟨r, hr⟩ := ih (hash_level cur) hlen' hnextne (i / 2) hhalf'
        rw [levelsList_ne_nil (hash_level cur) hnextne] at hr
        rw [htarget] at hr
        exact ⟨r, hr⟩
      · rw [sib_of_odd cur hpar]
        dsimp only
        rw [verify_step_eval]
        rw [show (2 : Nat) * (i / 2) = i - 1 from by omega,
          show i - 1 + 1 = i from by omega] at htarget
        rw [if_pos hi] at htarget
        rw [htarget]
        simp only [Option.getD_none, Option.getD_some]
        rw [if_pos trivial]
        simp only [Option.some_bind, Option.bind_eq_bind]
        obtain ⟨r, hr⟩ := ih (hash_level cur) hlen' hnextne (i / 2) hhalf'
        rw [levelsList_ne_nil (hash_level cur) hnextne] at hr
        rw [htarget] at hr
        exact ⟨r, hr⟩

theorem verify_entries_clean_ne (cur : List Hash) (i : Nat) (d : Hash)
    (hge2 : 2 ≤ cur.length) (hi : i < cur.length)
    (hd : d ≠ cur.getD i Hash.uninit) :
    (entries_cleanL (levelsList cur) i).foldlM verify_step d = none := by
  have hne : cur ≠ [] := by
    intro hc
    subst hc
    simp at hge2
  have hone : next_level_len cur.length ≠ 0 := by
    have := next_level_len_pos hge2
    omega
  have hnextne : hash_level cur ≠ [] := hash_level_ne_nil hone
  have hhalf : i / 2 < next_level_len cur.length :=
    half_lt_next_level_len hi hge2
  have htarget := hash_level_getD cur hhalf
  rw [levelsList_ne_nil cur hne, levelsList_ne_nil (hash_level cur) hnextne,
    entries_cleanL_cons, List.foldlM_cons]
  by_cases hpar : i % 2 = 0
  · rw [sib_of_even cur hpar]
    dsimp only
    rw [verify_step_eval]
    rw [show (2 : Nat) * (i / 2) = i from by omega] at htarget
    rw [htarget]
    simp only [Option.getD_none, getD_ite_some]
    set X := if i + 1 < cur.length then cur.getD (i + 1) Hash.uninit
      else cur.getD i Hash.uninit with hX
    have hcond : ¬ (hash_intermediate d X
        = hash_intermediate (cur.getD i Hash.uninit) X) := by
      intro hc
      simp only [hash_intermediate, Hash.node.injEq] at hc
      exact hd hc.1
    rw [if_neg hcond]
    rfl
  · rw [sib_of_odd cur hpar]
    dsimp only
    rw [verify_step_eval]
    rw [show (2 : Nat) * (i / 2) = i - 1 from by omega,
      show i - 1 + 1 = i from by omega] at htarget
    rw [if_pos hi] at htarget
    rw [htarget]
    simp only [Option.getD_none, Option.getD_some]
    have hcond : ¬ (hash_intermediate (cur.getD (i - 1) Hash.uninit) d
        = hash_intermediate (cur.getD (i - 1) Hash.uninit)
            (cur.getD i Hash.uninit)) := by
      intro hc
      simp only [hash_intermediate, Hash.node.injEq] at hc
      exact hd hc.2
    rw [if_neg hcond]
    rfl

theorem leaves_getD (items : List (List Nat)) {i : Nat}
    (h : i < items.length) :
    (items.map (fun item => hash_leaf item)).getD i Hash.uninit
      = hash_leaf (items.getD i []) := by
  have h' : i < (items.map (fun item => hash_leaf item)).length := by
    simpa using h
  rw [List.getD_eq_getElem _ _ h', List.getElem_map,
    List.getD_eq_getElem _ _ h]

/-! ### C5, C2 (amended) and C10: proof generation and verification -/

/-- C5: for every record list and valid index `i`, verifying the proof
returned by `find_path i` on the tree built from the records against
`hash_leaf records[i]` returns `true`. -/
theorem find_path_verify_ok (items : List (List Nat)) (i : Nat)
    (h : i < items.length) :
    ∃ p, (MerkleTree.new items).find_path i = Except.ok (some p) ∧
      p.verify (hash_leaf (items.getD i [])) = true := by
  have hlen : i < (items.map (fun item => hash_leaf item)).length := by
    simpa using h
  have hne : items.map (fun item => hash_leaf item) ≠ [] := by
    intro hc
    rw [hc] at hlen
    simp at hlen
  obtain ⟨r, hr⟩ := verify_entries_clean
    (items.map (fun item => hash_leaf item)).length
    (items.map (fun item => hash_leaf item)) (Nat.le_refl _) hne i hlen
  refine ⟨_, find_path_eq items i h, ?_⟩
  unfold Proof.verify
  dsimp only
  rw [← leaves_getD items h, hr]
  rfl

/-- Witness for C5 on a three-record tree at index 2. -/
theorem find_path_verify_ok_witness :
    2 < 3 ∧ ∃ p, (MerkleTree.new [[0], [1], [2]]).find_path 2
        = Except.ok (some p) ∧
      p.verify (hash_leaf ([[0], [1], [2]].getD 2 [])) = true :=
  ⟨by decide, find_path_verify_ok [[0], [1], [2]] 2 (by decide)⟩

/-- C2 (amended): for every tree built from at least two records, every valid
index `i` and every digest `d` different from `hash_leaf records[i]`,
verifying the proof returned by `find_path i` against `d` returns `false`
(in the free-term-algebra model of the collision-free hash).  The amendment
drops the single-leaf case of the claim: for `n = 1` the proof is empty and
`verify` accepts every digest (see the counterexample). -/
theorem find_path_verify_rejects_wrong_digest (items : List (List Nat))
    (i : Nat) (d : Hash) (h2 : 2 ≤ items.length) (hi : i < items.length)
    (hd : d ≠ hash_leaf (items.getD i [])) :
    ∃ p, (MerkleTree.new items).find_path i = Except.ok (some p) ∧
      p.verify d = false := by
  have hlen : i < (items.map (fun item => hash_leaf item)).length := by
    simpa using hi
  have hlen2 : 2 ≤ (items.map (fun item => hash_leaf item)).length := by
    simpa using h2
  have hd' : d ≠ (items.map (fun item => hash_leaf item)).getD i Hash.uninit := by
    rw [leaves_getD items hi]
    exact hd
  have hnone := verify_entries_clean_ne
    (items.map (fun item => hash_leaf item)) i d hlen2 hlen hd'
  refine ⟨_, find_path_eq items i hi, ?_⟩
  unfold Proof.verify
  dsimp only
  rw [hnone]
  rfl

/-- Witness for the amended C2 on a two-record tree at index 0 with the
wrong digest `Hash.uninit`. -/
theorem find_path_verify_rejects_wrong_digest_witness :
    (2 ≤ 2 ∧ 0 < 2 ∧ Hash.uninit ≠ hash_leaf ([[0], [1]].getD 0 [])) ∧
      ∃ p, (MerkleTree.new [[0], [1]]).find_path 0 = Except.ok (some p) ∧
        p.verify Hash.uninit = false :=
  ⟨⟨by decide, by decide, by decide⟩,
    find_path_verify_rejects_wrong_digest [[0], [1]] 0 Hash.uninit
      (by decide) (by decide) (by decide)⟩

/-- C10: for every tree built from records and every in-range index,
`find_path` returns a proof without reaching the assertion of `ProofEntry::new`
(no `Except.error`), and every entry it constructed has exactly one sibling
set — the exclusive-or the assertion checks. -/
theorem find_path_entries_exactly_one_sibling (items : List (List Nat))
    (i : Nat) (h : i < items.length) :
    ∃ p, (MerkleTree.new items).find_path i = Except.ok (some p) ∧
      ∀ e ∈ p.entries, Bool.xor e.lsib.isNone e.rsib.isNone = true := by
  refine ⟨_, find_path_eq items i h, ?_⟩
  intro e he
  exact entries_cleanL_xor _ _ e he

/-- Witness for C10 on a five-record tree at index 4 (the duplicated-last
path). -/
theorem find_path_entries_exactly_one_sibling_witness :
    4 < 5 ∧ ∃ p, (MerkleTree.new [[0], [1], [2], [3], [4]]).find_path 4
        = Except.ok (some p) ∧
      ∀ e ∈ p.entries, Bool.xor e.lsib.isNone e.rsib.isNone = true :=
  ⟨by decide, find_path_entries_exactly_one_sibling [[0], [1], [2], [3], [4]]
    4 (by decide)⟩

/-! ### C8: the duplicate-last policy in all three algorithms -/

theorem getLast?_eq_getD (l : List Hash) (h : l ≠ []) (d : Hash) :
    l.getLast? = some (l.getD (l.length - 1) d) := by
  have hpos := List.length_pos.mpr h
  rw [List.getLast?_eq_getElem?, List.getElem?_eq_getElem (by omega),
    List.getD_eq_getElem _ _ (by omega)]


theorem iterate_hash_level_nil : ∀ k : Nat, hash_level^[k] ([] : List Hash) = [] := by
  intro k
  induction k with
  | zero => rfl
  | succ k ih =>
    rw [Function.iterate_succ_apply, show hash_level [] = [] from rfl, ih]

theorem entries_cleanL_self_paired : ∀ (k : Nat) (cur : List Hash) (i : Nat),
    cur ≠ [] → i < cur.length →
    (hash_level^[k] cur).length % 2 = 1 → 1 < (hash_level^[k] cur).length →
    i / 2 ^ k = (hash_level^[k] cur).length - 1 →
    (entries_cleanL (levelsList cur) i).getD k ⟨Hash.uninit, none, none⟩
      = self_paired_entry ((hash_level^[k] cur).getD
          ((hash_level^[k] cur).length - 1) Hash.uninit) := by
  intro k
  induction k with
  | zero =>
    intro cur i hne hi hodd hgt hlast
    rw [Function.iterate_zero_apply] at hodd hgt hlast ⊢
    rw [Nat.pow_zero, Nat.div_one] at hlast
    have hone : next_level_len cur.length ≠ 0 := by
      have := next_level_len_pos (show 2 ≤ cur.length by omega)
      omega
    have hnextne : hash_level cur ≠ [] := hash_level_ne_nil hone
    rw [levelsList_ne_nil cur hne, levelsList_ne_nil (hash_level cur) hnextne,
      entries_cleanL_cons, List.getD_cons_zero]
    have hpar : i % 2 = 0 := by omega
    rw [sib_of_even cur hpar]
    dsimp only
    have hhalf : i / 2 < next_level_len cur.length :=
      half_lt_next_level_len hi (by omega)
    rw [hash_level_getD cur hhalf]
    rw [show (2 : Nat) * (i / 2) = i from by omega]
    rw [if_neg (show ¬ i + 1 < cur.length from by omega)]
    rw [hlast]
    rw [if_neg (show ¬ cur.length - 1 + 1 < cur.length from by omega)]
    rfl
  | succ k ih =>
    intro cur i hne hi hodd hgt hlast
    rw [Function.iterate_succ_apply] at hodd hgt hlast ⊢
    have hnextne : hash_level cur ≠ [] := by
      intro hc
      rw [hc, iterate_hash_level_nil] at hgt
      simp at hgt
    have hone : next_level_len cur.length ≠ 0 := by
      intro hc
      exact hnextne (List.eq_nil_of_length_eq_zero
        (by rw [hash_level_length]; exact hc))
    have hge2 : 2 ≤ cur.length := by
      have h1 : 0 < cur.length := List.length_pos.mpr hne
      have hne1 : cur.length ≠ 1 := by
        intro hc
        apply hone
        rw [hc]
        rfl
      omega
    have hhalf : i / 2 < (hash_level cur).length := by
      rw [hash_level_length]
      exact half_lt_next_level_len hi hge2
    have hdiv : i / 2 / 2 ^ k = i / 2 ^ (k + 1) := by
      rw [Nat.div_div_eq_div_mul, ← Nat.pow_succ']
    rw [levelsList_ne_nil cur hne, levelsList_ne_nil (hash_level cur) hnextne,
      entries_cleanL_cons, List.getD_cons_succ]
    rw [← levelsList_ne_nil (hash_level cur) hnextne]
    exact ih (hash_level cur) (i / 2) hnextne hhalf hodd hgt
      (by rw [hdiv]; exact hlast)

/-- C8: on every level with an odd number of nodes greater than one, the last
node is paired with itself: (builder) the last parent pushed by the inner
loop of `MerkleTree::new` is `hash_intermediate last last`; (proof
generation) whenever the walk of `find_path i` sits at the last position of
an odd-length level `k` — any level of the tree, not only the leaves — the
entry it records at step `k` discloses that node itself as the right sibling,
no left sibling, and targets `hash_intermediate last last`; (fast calculator)
the loop of `commit_finish` at an odd pending count folds the carried digest
with itself. -/
theorem duplicate_last_policy :
    (∀ (done prev : List Hash), prev.length % 2 = 1 → 1 < prev.length →
      (buildOneLevel (done ++ prev) done.length prev.length
          (next_level_len prev.length)).getLast?
        = some (hash_intermediate (prev.getD (prev.length - 1) Hash.uninit)
            (prev.getD (prev.length - 1) Hash.uninit))) ∧
    (∀ (items : List (List Nat)) (i k : Nat), i < items.length →
      (walk_level items k).length % 2 = 1 → 1 < (walk_level items k).length →
      i / 2 ^ k = (walk_level items k).length - 1 →
      ∃ p, (MerkleTree.new items).find_path i = Except.ok (some p) ∧
        p.entries.getD k ⟨Hash.uninit, none, none⟩
          = self_paired_entry ((walk_level items k).getD
              ((walk_level items k).length - 1) Hash.uninit)) ∧
    (∀ (fuel : Nat) (nodes : List Hash) (tmp : Hash)
        (layer layer_count : Nat),
      layer_count % 2 = 1 → 1 < layer_count →
      commit_finish_loopF (fuel + 1) nodes tmp layer layer_count
        = commit_finish_loopF fuel nodes (hash_intermediate tmp tmp)
            (layer + 1) ((layer_count + 1) >>> 1)) := by
  refine ⟨?_, ?_, ?_⟩
  · -- the tree builder
    intro done prev hodd hgt
    rw [buildOneLevel_eq done prev]
    have hnll : 0 < next_level_len prev.length := next_level_len_pos (by omega)
    have hne' : hash_level prev ≠ [] := hash_level_ne_nil (by omega)
    rw [List.getLast?_append_of_ne_nil (done ++ prev) hne',
      getLast?_eq_getD (hash_level prev) hne' Hash.uninit, hash_level_length,
      hash_level_getD prev (show next_level_len prev.length - 1
        < next_level_len prev.length by omega)]
    have h2k : 2 * (next_level_len prev.length - 1) = prev.length - 1 := by
      unfold next_level_len
      rw [if_neg (show ¬ prev.length = 1 by omega)]
      omega
    rw [h2k, if_neg (show ¬ prev.length - 1 + 1 < prev.length by omega)]
  · -- proof generation, at every odd-length level the walk visits last
    intro items i k hi hodd hgt hlast
    have hne : items ≠ [] := by
      intro hc
      subst hc
      simp at hi
    have hlne : items.map (fun item => hash_leaf item) ≠ [] := by
      simpa using hne
    have hlen : i < (items.map (fun item => hash_leaf item)).length := by
      simpa using hi
    refine ⟨_, find_path_eq items i hi, ?_⟩
    show (entries_cleanL (levelsList (items.map (fun item =>
        hash_leaf item))) i).getD k ⟨Hash.uninit, none, none⟩
      = self_paired_entry ((walk_level items k).getD
          ((walk_level items k).length - 1) Hash.uninit)
    unfold walk_level at hodd hgt hlast ⊢
    exact entries_cleanL_self_paired k (items.map (fun item => hash_leaf item))
      i hlne hlen hodd hgt hlast
  · -- the finishing loop of the fast calculator
    intro fuel nodes tmp layer layer_count hodd hgt
    simp only [commit_finish_loopF]
    rw [if_pos hgt, if_pos hodd]

/-- Witness for C8: the three duplicate-last conclusions instantiated at a
three-node level (builder), at the odd three-node level 1 of a six-record
tree reached by `find_path 5` (proof generation above the leaves), and at a
pending count of 3 (fast calculator). -/
theorem duplicate_last_policy_witness :
    ((3 : Nat) % 2 = 1 ∧ (1 : Nat) < 3 ∧ (5 : Nat) < 6 ∧
      (5 : Nat) / 2 ^ 1 = 3 - 1) ∧
    (buildOneLevel [hash_leaf [0], hash_leaf [1], hash_leaf [2]] 0 3 2).getLast?
      = some (hash_intermediate (hash_leaf [2]) (hash_leaf [2])) ∧
    (∃ p, (MerkleTree.new [[0], [1], [2], [3], [4], [5]]).find_path 5
        = Except.ok (some p) ∧
      p.entries.getD 1 ⟨Hash.uninit, none, none⟩
        = self_paired_entry (hash_intermediate (hash_leaf [4])
            (hash_leaf [5]))) ∧
    commit_finish_loopF 2 [] Hash.uninit 0 3
      = commit_finish_loopF 1 [] (hash_intermediate Hash.uninit Hash.uninit)
          1 2 :=
  ⟨⟨by decide, by decide, by decide, by decide⟩,
    duplicate_last_policy.1 []
      [hash_leaf [0], hash_leaf [1], hash_leaf [2]] (by decide) (by decide),
    duplicate_last_policy.2.1 [[0], [1], [2], [3], [4], [5]] 5 1 (by decide)
      (by decide) (by decide) (by decide),
    duplicate_last_policy.2.2 1 [] Hash.uninit 0 3 (by decide) (by decide)⟩
